import Mathlib

/-!
Verification of the `umbi` typed binary codec against its specification.

This file shallowly embeds the parts of the `umbi` Python package that the
checked claims are about:

* the closed type system (`umbi/datatypes/atomic.py`, `numeric_primitive.py`,
  `interval.py`, `datatype.py`, `sized_type.py`, `struct.py`, `vector.py`);
* the integer / rational primitive codec (`umbi/binary/integers.py`,
  `rationals.py`, `numeric_primitives.py`);
* the bit-level struct packer and unpacker (`umbi/binary/structs.py`);
* the archive read/write session bookkeeping (`umbi/io/umb.py`, `tar.py`).

Python `int` is modelled as `Int`, `Fraction` as `Rat` (both keep values in
lowest terms with a positive denominator), `bytes` as `List Nat` with every
element intended below 256, `bitstring.BitArray` as `List Bool` with the most
significant bit at the head (exactly the convention the Python code documents),
Python `set` as `Finset`, and raising `ValueError` / `AssertionError` /
`KeyError` as returning `Except.error`.
-/

namespace Umbi

/-! ## Type system (`umbi/datatypes`) -/

/-- `AtomicType` from `umbi/datatypes/atomic.py`. -/
inductive AtomicType where
  | bool
  | string
  deriving DecidableEq, Repr, Fintype

/-- `NumericPrimitiveType` from `umbi/datatypes/numeric_primitive.py`. -/
inductive NumericPrimitiveType where
  | int
  | uint
  | double
  | rational
  deriving DecidableEq, Repr, Fintype

/-- `IntervalType` from `umbi/datatypes/interval.py`. -/
inductive IntervalType where
  | int
  | uint
  | double
  | rational
  deriving DecidableEq, Repr, Fintype

/-- `DataType = AtomicType | NumericType` where
`NumericType = NumericPrimitiveType | IntervalType`
(`umbi/datatypes/datatype.py`, `numeric.py`): a closed tagged union. -/
inductive DataType where
  | atomic (a : AtomicType)
  | prim (p : NumericPrimitiveType)
  | itv (i : IntervalType)
  deriving DecidableEq, Repr, Fintype

/-- `interval_base_type` from `umbi/datatypes/interval.py`. -/
def interval_base_type : IntervalType → NumericPrimitiveType
  | .int => .int
  | .uint => .uint
  | .double => .double
  | .rational => .rational

/-- `base_to_interval_type` from `umbi/datatypes/interval.py`. -/
def base_to_interval_type : NumericPrimitiveType → IntervalType
  | .int => .int
  | .uint => .uint
  | .double => .double
  | .rational => .rational

/-- `common_numeric_primitive_type` from `umbi/datatypes/numeric_primitive.py`:
priority `rational > double > int > uint`; the empty set is an assertion
error, modelled as `none`. -/
def common_numeric_primitive_type (types : Finset NumericPrimitiveType) :
    Option NumericPrimitiveType :=
  if types = ∅ then none
  else if NumericPrimitiveType.rational ∈ types then some .rational
  else if NumericPrimitiveType.double ∈ types then some .double
  else if NumericPrimitiveType.int ∈ types then some .int
  else some .uint

/-- `common_interval_type` from `umbi/datatypes/interval.py`: map every
interval type to its base, resolve, map back. -/
def common_interval_type (types : Finset IntervalType) : Option IntervalType :=
  if types = ∅ then none
  else
    (common_numeric_primitive_type (types.image interval_base_type)).map
      base_to_interval_type

/-- Test whether a `DataType` is numeric (primitive or interval); the numeric
helpers assert this of every member of their argument. -/
def DataType.isNumeric : DataType → Bool
  | .atomic _ => false
  | .prim _ => true
  | .itv _ => true

/-- `is_interval_type` from `umbi/datatypes/numeric.py`
(`isinstance(t, IntervalType)`). -/
def DataType.isIntervalType : DataType → Bool
  | .itv _ => true
  | _ => false

/-- The comprehension
`{base_to_interval_type(t) if isinstance(t, NumericPrimitiveType) else t}`
from `common_numeric_type` (`umbi/datatypes/numeric.py`), as a projection of a
numeric `DataType` to an interval type (the atomic case is unreachable there
after the all-numeric assertion). -/
def DataType.toIntervalType : DataType → Option IntervalType
  | .atomic _ => none
  | .prim p => some (base_to_interval_type p)
  | .itv i => some i

/-- Partial projection of a `DataType` to a `NumericPrimitiveType`. -/
def DataType.toPrim : DataType → Option NumericPrimitiveType
  | .prim p => some p
  | _ => none

/-- `common_numeric_type` from `umbi/datatypes/numeric.py`: if any member is
an interval type, convert all primitive members to interval types and resolve
via `common_interval_type`; otherwise resolve via
`common_numeric_primitive_type`.  Assertion failures (empty set, non-numeric
member) are modelled as `none`. -/
def common_numeric_type (types : Finset DataType) : Option DataType :=
  if types = ∅ then none
  else if ¬ (∀ t ∈ types, t.isNumeric) then none
  else if ∃ t ∈ types, t.isIntervalType then
    (common_interval_type
        (types.image (fun t => (DataType.toIntervalType t).getD .int))).map
      DataType.itv
  else
    (common_numeric_primitive_type
        (types.image (fun t => (DataType.toPrim t).getD .int))).map
      DataType.prim

/-- `common_datatype` from `umbi/datatypes/datatype.py`, modelled with the
mutation of its `set` argument made explicit: the result is the returned
`DataType` (or `none` for an assertion failure) paired with the final state of
the caller's set.  The Python body removes `AtomicType.BOOL` from the argument
in place (`types.remove(AtomicType.BOOL)`) before delegating to
`common_numeric_type`. -/
def common_datatype_state (types : Finset DataType) :
    Option DataType × Finset DataType :=
  if types = ∅ then (none, types)
  else if DataType.atomic .string ∈ types then (some (.atomic .string), types)
  else if DataType.atomic .bool ∈ types then
    if types.card = 1 then (some (.atomic .bool), types)
    else
      let types' := types.erase (.atomic .bool)
      (common_numeric_type types', types')
  else (common_numeric_type types, types)

/-- The value returned by `common_datatype`. -/
def common_datatype (types : Finset DataType) : Option DataType :=
  (common_datatype_state types).1

/-- Spec-side tie-break priority, following the specification's words:
"if Rational is present return Rational; else if Double present return
Double; else if SignedInt present return SignedInt; else return
UnsignedInt". -/
def spec_priority (bases : Finset NumericPrimitiveType) :
    NumericPrimitiveType :=
  if NumericPrimitiveType.rational ∈ bases then .rational
  else if NumericPrimitiveType.double ∈ bases then .double
  else if NumericPrimitiveType.int ∈ bases then .int
  else .uint

/-- Spec-side base projection of a numeric type ("mapping each to its base
NumericPrimitive"); the atomic case is unreachable on numeric members. -/
def spec_base : DataType → NumericPrimitiveType
  | .prim p => p
  | .itv i => interval_base_type i
  | .atomic _ => .uint

/-- Spec-side restatement of the claimed behaviour of `common_datatype`:
String dominates; `{Boolean}` maps to Boolean; otherwise Boolean is dropped
and the remaining numeric types resolve by `spec_priority` over their bases,
the result being an Interval type whenever any member is an Interval type. -/
def spec_common_datatype (types : Finset DataType) : Option DataType :=
  if DataType.atomic .string ∈ types then some (.atomic .string)
  else if types = {DataType.atomic .bool} then some (.atomic .bool)
  else
    let numerics := types.erase (.atomic .bool)
    let base := spec_priority (numerics.image spec_base)
    if ∃ t ∈ numerics, t.isIntervalType then
      some (.itv (base_to_interval_type base))
    else some (.prim base)

/-! ## CSR offsets and ranges (`umbi/datatypes/vector.py`) -/

/-- The per-pair and contiguity loop of `is_vector_ranges`
(`umbi/datatypes/vector.py`): every element is an ordered pair and
`ranges[i][1] == ranges[i+1][0]`. -/
def rangesChainOk : List (Int × Int) → Bool
  | a :: b :: rest => decide (a.2 = b.1) && rangesChainOk (b :: rest)
  | _ => true

/-- `is_vector_ranges` from `umbi/datatypes/vector.py` (the `isinstance`
checks are carried by the Lean types). -/
def is_vector_ranges (ranges : List (Int × Int)) : Bool :=
  if ranges.length = 0 then false
  else if ¬ ranges.all (fun x => decide (x.1 ≤ x.2)) then false
  else rangesChainOk ranges

/-- The monotonicity loop of `is_vector_csr`:
`vector[i] <= vector[i+1]` for all consecutive entries. -/
def csrNondec : List Int → Bool
  | a :: b :: rest => decide (a ≤ b) && csrNondec (b :: rest)
  | _ => true

/-- `is_vector_csr` from `umbi/datatypes/vector.py`. -/
def is_vector_csr (vector : List Int) : Bool :=
  if vector.length < 2 then false
  else if vector.head? ≠ some 0 then false
  else csrNondec vector

/-- The comprehension `[(csr[i], csr[i+1]) for i in range(len(csr)-1)]` from
`csr_to_ranges`. -/
def csrPairs : List Int → List (Int × Int)
  | a :: b :: rest => (a, b) :: csrPairs (b :: rest)
  | _ => []

/-- The list `[interval[0] for interval in ranges] + [ranges[-1][-1]]` from
`ranges_to_csr` (only reached on non-empty input). -/
def rangesCsr : List (Int × Int) → List Int
  | [] => []
  | [(a, b)] => [a, b]
  | (a, _) :: r :: rest => a :: rangesCsr (r :: rest)

/-- `csr_to_ranges` from `umbi/datatypes/vector.py`; the leading `assert`
is modelled as an error result. -/
def csr_to_ranges (csr : List Int) : Except String (List (Int × Int)) :=
  if is_vector_csr csr then .ok (csrPairs csr)
  else .error "input is not a valid CSR vector"

/-- `ranges_to_csr` from `umbi/datatypes/vector.py`; the leading `assert`
is modelled as an error result. -/
def ranges_to_csr (ranges : List (Int × Int)) : Except String (List Int) :=
  if is_vector_ranges ranges then .ok (rangesCsr ranges)
  else .error "input is not a valid ranges vector"

/-! ## Integer codec (`umbi/binary/integers.py`) -/

/-- Fuel-based bit length of a natural number (the fuel keeps the recursion
structural so that the kernel can evaluate it; `bitLengthAux_eq_size` shows it
agrees with `Nat.size` whenever the fuel is sufficient). -/
def bitLengthAux : Nat → Nat → Nat
  | 0, _ => 0
  | fuel + 1, n => if n = 0 then 0 else bitLengthAux fuel (n / 2) + 1

/-- Python `int.bit_length()` for a possibly negative integer: the bit length
of the absolute value. -/
def bit_length (v : Int) : Nat :=
  bitLengthAux v.natAbs v.natAbs

/-- `num_bits_for_integer` from `umbi/binary/integers.py`: minimal number of
bits for a value, plus a sign bit when `signed`, optionally rounded up to the
next multiple of 8. -/
def num_bits_for_integer (value : Int) (signed : Bool := true)
    (round_to_8 : Bool := true) : Nat :=
  let num_bits :=
    if ¬ signed then bit_length value
    else (if value ≥ 0 then bit_length value else bit_length (-value - 1)) + 1
  if round_to_8 ∧ num_bits % 8 ≠ 0 then num_bits + (8 - num_bits % 8)
  else num_bits

/-- `num_bytes_for_integer` from `umbi/binary/integers.py`: the bit count
divided by 8, and — when `round_to_8` — rounded up again to the next multiple
of 8 *bytes*. -/
def num_bytes_for_integer (value : Int) (signed : Bool := true)
    (round_to_8 : Bool := true) : Nat :=
  let num_bytes := num_bits_for_integer value signed round_to_8 / 8
  if round_to_8 ∧ num_bytes % 8 ≠ 0 then num_bytes + (8 - num_bytes % 8)
  else num_bytes

/-- The range check of `assert_integer_fits` from `umbi/binary/integers.py`
for a width given in bits. -/
def integer_fits_bits (value : Int) (signed : Bool) (num_bits : Nat) : Prop :=
  if signed then
    -(2 ^ (num_bits - 1) : Int) ≤ value ∧ value ≤ 2 ^ (num_bits - 1) - 1
  else
    0 ≤ value ∧ value ≤ 2 ^ num_bits - 1

instance (value : Int) (signed : Bool) (num_bits : Nat) :
    Decidable (integer_fits_bits value signed num_bits) := by
  unfold integer_fits_bits; infer_instance

/-- Little-endian base-256 digits of a natural number, `n` bytes. -/
def leBytesOfNat : Nat → Nat → List Nat
  | 0, _ => []
  | n + 1, w => w % 256 :: leBytesOfNat n (w / 256)

/-- Value of a little-endian byte list (`int.from_bytes(_, "little")` on
non-negative data). -/
def leBytesToNat : List Nat → Nat
  | [] => 0
  | b :: bs => b + 256 * leBytesToNat bs

/-- `int.to_bytes(num_bytes, byteorder, signed)`: two's-complement encoding.
The caller (`integer_to_bytes`) has already checked the range. -/
def intToBytesRaw (value : Int) (num_bytes : Nat) (signed little_endian : Bool)
    : List Nat :=
  let w : Nat := (if signed ∧ value < 0
    then value + 2 ^ (8 * num_bytes) else value).toNat
  let le := leBytesOfNat num_bytes w
  if little_endian then le else le.reverse

/-- `integer_to_bytes` from `umbi/binary/integers.py`: check the range via
`assert_integer_fits` (raising `ValueError` when the value does not fit), then
delegate to `int.to_bytes`. -/
def integer_to_bytes (value : Int) (num_bytes : Nat) (signed : Bool := true)
    (little_endian : Bool := true) : Except String (List Nat) :=
  if integer_fits_bits value signed (num_bytes * 8)
  then .ok (intToBytesRaw value num_bytes signed little_endian)
  else .error "integer value is out of range"

/-- `bytes_to_integer` from `umbi/binary/integers.py`
(`int.from_bytes(data, byteorder, signed)`). -/
def bytes_to_integer (data : List Nat) (signed : Bool := true)
    (little_endian : Bool := true) : Int :=
  let le := if little_endian then data else data.reverse
  let w := leBytesToNat le
  if signed ∧ 2 ^ (8 * data.length - 1) ≤ w
  then (w : Int) - 2 ^ (8 * data.length)
  else (w : Int)

/-! ## Sized types (`umbi/datatypes/sized_type.py`) -/

/-- `atomic_type_default_size` from `umbi/datatypes/sized_type.py`. -/
def atomic_type_default_size : AtomicType → Nat
  | .bool => 1
  | .string => 64

/-- `numeric_primitive_type_default_size` from
`umbi/datatypes/sized_type.py`. -/
def numeric_primitive_type_default_size : NumericPrimitiveType → Nat
  | .int => 64
  | .uint => 64
  | .double => 64
  | .rational => 128

/-- `interval_type_default_size` from `umbi/datatypes/sized_type.py`. -/
def interval_type_default_size : IntervalType → Nat
  | .int => 128
  | .uint => 128
  | .double => 128
  | .rational => 256

/-- `type_default_size` from `umbi/datatypes/sized_type.py`. -/
def type_default_size : DataType → Nat
  | .atomic a => atomic_type_default_size a
  | .prim p => numeric_primitive_type_default_size p
  | .itv i => interval_type_default_size i

/-- `validate_atomic_type_size` from `umbi/datatypes/sized_type.py`. -/
def validate_atomic_type_size (type : AtomicType) (size : Nat) :
    Except String Unit :=
  if type = .string then
    if size ≠ 64 then .error "string size must be 64" else .ok ()
  else .ok ()

/-- `validate_numeric_primitive_type_size` from
`umbi/datatypes/sized_type.py`. -/
def validate_numeric_primitive_type_size (type : NumericPrimitiveType)
    (size : Nat) : Except String Unit :=
  if type = .double ∧ size ≠ 64 then .error "double size must be 64"
  else if type = .rational ∧ size % 2 ≠ 0 then
    .error "rational size must be a multiple of 2"
  else .ok ()

/-- `validate_interval_type_size` from `umbi/datatypes/sized_type.py`
(the `type in {INT, UINT, DOUBLE, RATIONAL}` guard covers every
`IntervalType` constructor). -/
def validate_interval_type_size (type : IntervalType) (size : Nat) :
    Except String Unit :=
  if size % 2 ≠ 0 then .error "interval size must be a multiple of 2"
  else if type = .rational ∧ size % 4 ≠ 0 then
    .error "rational-interval size must be a multiple of 4"
  else .ok ()

/-- `validate_type_size` from `umbi/datatypes/sized_type.py`. -/
def validate_type_size : DataType → Nat → Except String Unit
  | .atomic a, size => validate_atomic_type_size a size
  | .prim p, size => validate_numeric_primitive_type_size p size
  | .itv i, size => validate_interval_type_size i size

/-- `SizedType` from `umbi/datatypes/sized_type.py`: a `DataType` plus a width
in bits. -/
structure SizedType where
  type : DataType
  size_bits : Nat
  deriving DecidableEq, Repr

/-- The hand-written `__init__` of `SizedType`: it fills in the default size
and performs NO validation.  Because the class body defines its own
`__init__`, the `@dataclass`-generated initializer — the only caller of
`__post_init__`, which is what invokes `validate` — is never created
(`dataclasses` documentation: "If the class already defines `__init__`, this
parameter is ignored"), so the `validate`/`__post_init__` pair is dead code at
construction time. -/
def SizedType_init (type : DataType) (size_bits : Option Nat := none) :
    SizedType :=
  { type := type, size_bits := size_bits.getD (type_default_size type) }

/-- `SizedType.validate`: the `size must be positive` assertion followed by
`validate_type_size` (never invoked by `SizedType_init`, see above). -/
def SizedType.validate (st : SizedType) : Except String Unit :=
  if st.size_bits ≤ 0 then .error "size must be positive"
  else validate_type_size st.type st.size_bits

/-- `SizedType.size_bytes` (ceiling division). -/
def SizedType.size_bytes (st : SizedType) : Nat :=
  (st.size_bits + 7) / 8

/-- `SizedType.is_byte_aligned`. -/
def SizedType.is_byte_aligned (st : SizedType) : Bool :=
  st.size_bits % 8 == 0

/-- `BOOL1` from `umbi/datatypes/sized_type.py`. -/
def BOOL1 : SizedType := SizedType_init (.atomic .bool) (some 1)

/-- `UINT32` from `umbi/datatypes/sized_type.py`. -/
def UINT32 : SizedType := SizedType_init (.prim .uint) (some 32)

/-- `UINT64` from `umbi/datatypes/sized_type.py`. -/
def UINT64 : SizedType := SizedType_init (.prim .uint) (some 64)

/-! ## Rational codec (`umbi/binary/rationals.py`,
`umbi/binary/numeric_primitives.py`) -/

/-- `normalize_rational` from `umbi/binary/rationals.py`.  A Python
`Fraction` — like Lean's `Rat` — always stores a positive denominator, so the
sign-flip branch is unreachable. -/
def normalize_rational (value : Rat) : Rat :=
  if (value.den : Int) < 0 then
    ((-value.num : Int) : Rat) / ((-(value.den : Int) : Int) : Rat)
  else value

/-- `num_bytes_for_rational` from `umbi/binary/rationals.py`: twice the larger
of the two per-term byte counts, each rounded up (`round_to_8`) to a multiple
of 8 bytes. -/
def num_bytes_for_rational (value : Rat) : Nat :=
  let numerator_size := num_bytes_for_integer value.num true true
  let denominator_size := num_bytes_for_integer (value.den : Int) false true
  max numerator_size denominator_size * 2

/-- `rational_to_bytes` from `umbi/binary/rationals.py`: normalize, reject a
term size below the (rounded) minimum, then concatenate the signed numerator
and unsigned denominator encodings, each `term_size_bytes` wide. -/
def rational_to_bytes (value : Rat) (term_size_bytes : Nat)
    (little_endian : Bool := true) : Except String (List Nat) :=
  let value := normalize_rational value
  let minimal_term_size := num_bytes_for_rational value / 2
  if term_size_bytes < minimal_term_size then
    .error "term_size is too small to represent the rational"
  else
    (integer_to_bytes value.num term_size_bytes true little_endian).bind
      fun numerator_bytes =>
        (integer_to_bytes (value.den : Int) term_size_bytes false
            little_endian).map
          fun denominator_bytes => numerator_bytes ++ denominator_bytes

/-- Python `NumericPrimitive = int | float | Fraction`; the embedding covers
the integer and rational alternatives (no claim touches `float` values, and a
non-float value reaching the DOUBLE branch of a codec fails its `isinstance`
assertion). -/
inductive NumericPrimitive where
  | int (v : Int)
  | frac (q : Rat)
  deriving DecidableEq, Repr

/-- The concrete `Fraction(3, 4)` used by the spec's examples, written as an
explicit normalized `Rat` literal so that the kernel can evaluate the codec
on it. -/
def ratThreeQuarters : Rat := ⟨3, 4, by norm_num, by norm_num⟩

/-- `numeric_primitive_to_bytes` from `umbi/binary/numeric_primitives.py`.
Note that the RATIONAL branch passes the full `sized_type.size_bytes` as the
per-term size of `rational_to_bytes`; the `isinstance` assertions are
modelled as errors. -/
def numeric_primitive_to_bytes (value : NumericPrimitive)
    (sized_type : SizedType) (little_endian : Bool := true) :
    Except String (List Nat) :=
  match sized_type.type with
  | .prim .int =>
    match value with
    | .int v => integer_to_bytes v sized_type.size_bytes true little_endian
    | _ => .error "expected an integer value"
  | .prim .uint =>
    match value with
    | .int v => integer_to_bytes v sized_type.size_bytes false little_endian
    | _ => .error "expected an integer value"
  | .prim .double => .error "expected a float value"
  | .prim .rational =>
    match value with
    | .frac q => rational_to_bytes q sized_type.size_bytes little_endian
    | _ => .error "expected a rational value"
  | _ => .error "expected a NumericPrimitiveType"

/-! ## Struct types (`umbi/datatypes/struct.py`) -/

/-- `StructPadding` from `umbi/datatypes/struct.py` (positivity is only
checked by its `validate`, not at construction). -/
structure StructPadding where
  padding : Nat
  deriving DecidableEq, Repr

/-- `StructAttribute` from `umbi/datatypes/struct.py`. -/
structure StructAttribute where
  name : String
  sized_type : SizedType
  is_optional : Bool := false
  lower : Option Int := none
  upper : Option Int := none
  offset : Option Int := none
  deriving DecidableEq, Repr

/-- `StructField = StructPadding | StructAttribute`. -/
inductive StructField where
  | pad (p : StructPadding)
  | attr (a : StructAttribute)
  deriving DecidableEq, Repr

/-- `StructAttribute.size_bits`: the declared width plus one presence bit for
an optional attribute. -/
def StructAttribute.size_bits (a : StructAttribute) : Nat :=
  a.sized_type.size_bits + (if a.is_optional then 1 else 0)

/-- `StructField.size_bits`. -/
def StructField.size_bits : StructField → Nat
  | .pad p => p.padding
  | .attr a => a.size_bits

/-- `StructType` from `umbi/datatypes/struct.py`. -/
structure StructType where
  fields : List StructField
  deriving DecidableEq, Repr

/-- `StructType.size_bits`: sum of the fields' widths. -/
def StructType.size_bits (st : StructType) : Nat :=
  (st.fields.map StructField.size_bits).sum

/-! ## Bit-level values (`umbi/binary/common.py`, missing
`umbi/binary/bitvectors.py`) -/

/-- `bitstring.BitArray`: a list of booleans, most significant bit at index
0 (the convention the Python code documents as "MSB at [0]"). -/
abbrev Bits := List Bool

/-- `BitArray(uint=w, length=len)`: fixed-width bits, MSB first. -/
def natToBits : Nat → Nat → Bits
  | 0, _ => []
  | len + 1, w => natToBits len (w / 2) ++ [decide (w % 2 = 1)]

/-- `BitArray.uint`: value of an MSB-first bit list. -/
def bitsToNat (bits : Bits) : Nat :=
  bits.foldl (fun acc b => 2 * acc + (if b then 1 else 0)) 0

/-- `bits_to_integer` from `umbi/binary/integers.py` (`BitArray.int` is the
two's complement of `BitArray.uint`). -/
def bits_to_integer (bits : Bits) (signed : Bool := true) : Int :=
  if signed then
    if bits.head?.getD false then
      (bitsToNat bits : Int) - 2 ^ bits.length
    else (bitsToNat bits : Int)
  else (bitsToNat bits : Int)

/-- `integer_to_bits` from `umbi/binary/integers.py`: range check, then the
fixed-width two's complement bits. -/
def integer_to_bits (value : Int) (num_bits : Nat) (signed : Bool := true) :
    Except String Bits :=
  if integer_fits_bits value signed num_bits then
    .ok (natToBits num_bits
      ((if signed ∧ value < 0 then value + 2 ^ num_bits else value).toNat))
  else .error "integer value is out of range"

/-- `BitArray(bytes=...)`: bytes in order, each MSB first. -/
def bytesToBits (bs : List Nat) : Bits :=
  (bs.map (fun b => natToBits 8 b)).flatten

/-- `rational_to_bits` from `umbi/binary/rationals.py`: encode to bytes
(note: the caller `numeric_primitive_to_bits` passes `size_bits` — a bit
count — as `term_size_bytes`) and view them as bits. -/
def rational_to_bits (value : Rat) (term_size_bytes : Nat) :
    Except String Bits :=
  (rational_to_bytes value term_size_bytes).map bytesToBits

/-- Modelled from the spec: `bool_to_bits` lives in
`umbi/binary/bitvectors.py`, which is absent from the provided sources; per
the spec a boolean attribute simply occupies its declared width, so the value
is encoded as 0 or 1 at `num_bits` bits. -/
def bool_to_bits (value : Bool) (num_bits : Nat) : Bits :=
  natToBits num_bits (if value then 1 else 0)

/-- Modelled from the spec: `bits_to_bool` (also from the absent
`umbi/binary/bitvectors.py`), mirroring the byte-level boolean decoding
`any(b != 0 for b in data)` of `bytes_to_value`: true iff any bit is set. -/
def bits_to_bool (bits : Bits) : Bool :=
  bits.any id

/-- Python `ValueType = Atomic | Numeric`; the embedding covers booleans,
integers, rationals and strings (IEEE-754 floats and `Interval` values are
outside the embedded fragment — no checked claim touches them, and the codecs
below reject them with the same assertions Python would apply to non-float
arguments). -/
inductive ValueType where
  | bool (b : Bool)
  | int (v : Int)
  | frac (q : Rat)
  | str (s : String)
  deriving DecidableEq, Repr

/-- `numeric_primitive_to_bits` from `umbi/binary/numeric_primitives.py`
(the DOUBLE branch asserts `isinstance(value, float)`, which fails for every
value of the embedded fragment). -/
def numeric_primitive_to_bits (value : NumericPrimitive)
    (sized_type : SizedType) : Except String Bits :=
  match sized_type.type with
  | .prim .int =>
    match value with
    | .int v => integer_to_bits v sized_type.size_bits true
    | _ => .error "expected an integer value"
  | .prim .uint =>
    match value with
    | .int v => integer_to_bits v sized_type.size_bits false
    | _ => .error "expected an integer value"
  | .prim .double => .error "expected a float value"
  | .prim .rational =>
    match value with
    | .frac q => rational_to_bits q sized_type.size_bits
    | _ => .error "expected a rational value"
  | _ => .error "expected a NumericPrimitiveType"

/-- `value_to_bits` from `umbi/binary/common.py`.  A Python `bool` is an
`int` (`isinstance(True, int)` holds), so a boolean value reaching the
numeric branch is encoded as the integer 0 or 1. -/
def value_to_bits (value : ValueType) (sized_type : SizedType) :
    Except String Bits :=
  match sized_type.type with
  | .atomic .bool =>
    match value with
    | .bool b => .ok (bool_to_bits b sized_type.size_bits)
    | _ => .error "expected a boolean value"
  | .atomic .string => .error "cannot pack string to bits"
  | .prim _ =>
    match value with
    | .bool b => numeric_primitive_to_bits (.int (if b then 1 else 0)) sized_type
    | .int v => numeric_primitive_to_bits (.int v) sized_type
    | .frac q => numeric_primitive_to_bits (.frac q) sized_type
    | .str _ => .error "expected a numeric value"
  | .itv _ => .error "cannot pack interval to bits"

/-- `bits_to_numeric_primitive` from `umbi/binary/numeric_primitives.py`
(DOUBLE decoding needs `umbi/binary/doubles.py`, absent from the sources, and
IEEE-754 floats are outside the embedded fragment; no checked claim decodes a
double or a rational from bits). -/
def bits_to_numeric_primitive (bits : Bits)
    (value_type : NumericPrimitiveType) : Except String ValueType :=
  match value_type with
  | .int => .ok (.int (bits_to_integer bits true))
  | .uint => .ok (.int (bits_to_integer bits false))
  | .double => .error "double decoding is outside the embedded fragment"
  | .rational => .error "rational decoding is outside the embedded fragment"

/-- `bits_to_value` from `umbi/binary/common.py`. -/
def bits_to_value (bits : Bits) (value_type : DataType) :
    Except String ValueType :=
  match value_type with
  | .atomic .bool => .ok (.bool (bits_to_bool bits))
  | .atomic .string => .error "cannot unpack string from bits"
  | .prim p => bits_to_numeric_primitive bits p
  | .itv _ => .error "cannot unpack interval from bits"

/-! ## Struct packer and unpacker (`umbi/binary/structs.py`) -/

/-- State of a `StructUnpacker`: the remaining input bytes and the bit
buffer (MSB at index 0). -/
structure StructUnpackerState where
  bytestring : List Nat
  buffer : Bits
  deriving DecidableEq, Repr

/-- The byte-reading loop of `StructUnpacker.align_buffer`: consume one byte
at a time from the front of the bytestring and prepend its bits (MSB side) to
the buffer. -/
def alignLoop : Nat → List Nat → Bits → Except String (List Nat × Bits)
  | 0, bs, buf => .ok (bs, buf)
  | k + 1, bs, buf =>
    match bs with
    | [] => .error "not enough data to fill the buffer"
    | b :: rest => alignLoop k rest (natToBits 8 b ++ buf)

/-- `StructUnpacker.align_buffer`: ensure the buffer holds at least
`num_bits` bits, reading whole bytes as needed. -/
def align_buffer (st : StructUnpackerState) (num_bits : Nat) :
    Except String StructUnpackerState :=
  if num_bits ≤ st.buffer.length then .ok st
  else
    let num_bytes_needed := (num_bits - st.buffer.length + 7) / 8
    if st.bytestring.length < num_bytes_needed then
      .error "not enough data to fill the buffer"
    else
      (alignLoop num_bytes_needed st.bytestring st.buffer).map
        fun p => ⟨p.1, p.2⟩

/-- `StructUnpacker.extract_from_buffer`: take `num_bits` bits from the LSB
end of the buffer (`buffer[-num_bits:]` / `buffer[:-num_bits]`; for
`num_bits = 0` Python's slices return the whole buffer and the empty list
respectively, which the model reproduces). -/
def extract_from_buffer (st : StructUnpackerState) (num_bits : Nat) :
    Except String (Bits × StructUnpackerState) :=
  (align_buffer st num_bits).map fun st' =>
    if num_bits = 0 then (st'.buffer, ⟨st'.bytestring, []⟩)
    else (st'.buffer.drop (st'.buffer.length - num_bits),
      ⟨st'.bytestring, st'.buffer.take (st'.buffer.length - num_bits)⟩)

/-- `StructUnpacker.unpack_attribute`: a string attribute reads a `UINT64`
index; an optional attribute treats `bits[-1]` as the presence bit and
returns `None` when it is clear. -/
def unpack_attribute (st : StructUnpackerState) (field : StructAttribute) :
    Except String (Option ValueType × StructUnpackerState) :=
  let sized_type :=
    if field.sized_type.type = .atomic .string then UINT64
    else field.sized_type
  (extract_from_buffer st sized_type.size_bits).bind fun p =>
    let bits := p.1
    let st' := p.2
    if field.is_optional then
      match bits.getLast? with
      | none => .error "bit index out of range"
      | some is_present_bit =>
        if ¬ is_present_bit then .ok (none, st')
        else
          (bits_to_value bits.dropLast sized_type.type).map fun v =>
            (some v, st')
    else (bits_to_value bits sized_type.type).map fun v => (some v, st')

/-- The field loop of `StructUnpacker.unpack_struct`, building the
name-to-value mapping in field order. -/
def unpack_fields (values : Unit) :
    StructUnpackerState → List StructField →
      Except String (List (String × Option ValueType) × StructUnpackerState)
  | st, [] => .ok ([], st)
  | st, .pad p :: rest =>
    (extract_from_buffer st p.padding).bind fun q =>
      unpack_fields values q.2 rest
  | st, .attr a :: rest =>
    (unpack_attribute st a).bind fun q =>
      (unpack_fields values q.2 rest).map fun r =>
        ((a.name, q.1) :: r.1, r.2)

/-- `struct_unpack` from `umbi/binary/structs.py`: run the fields, then
`assert_buffer_empty` (leftover input bytes are not checked). -/
def struct_unpack (bytestring : List Nat) (value_type : StructType) :
    Except String (List (String × Option ValueType)) :=
  (unpack_fields () ⟨bytestring, []⟩ value_type.fields).bind fun r =>
    if r.2.buffer.length > 0 then .error "expected the buffer to be empty"
    else .ok r.1

/-- State of a `StructPacker`: the bit buffer (MSB at index 0) and the bytes
already flushed. -/
structure StructPackerState where
  buffer : Bits
  bytestring : List Nat
  deriving DecidableEq, Repr

/-- The `while len(buffer) >= 8` loop of `StructPacker.flush_buffer`, on the
reversed (LSB-first) buffer: each group of 8 bits from the LSB end becomes
one output byte (`buffer[-8:].tobytes()`), earliest group first. -/
def flushBytesLsb : List Bool → List Nat × List Bool
  | a :: b :: c :: d :: e :: f :: g :: h :: rest =>
    let q := flushBytesLsb rest
    ((cond a 1 0 + 2 * cond b 1 0 + 4 * cond c 1 0 + 8 * cond d 1 0 +
      16 * cond e 1 0 + 32 * cond f 1 0 + 64 * cond g 1 0 +
      128 * cond h 1 0) :: q.1, q.2)
  | l => ([], l)

/-- `StructPacker.flush_buffer`: move every full byte from the LSB end of the
buffer to the output bytestring. -/
def flush_buffer (st : StructPackerState) : StructPackerState :=
  let q := flushBytesLsb st.buffer.reverse
  ⟨q.2.reverse, st.bytestring ++ q.1⟩

/-- `StructPacker.append_to_buffer`: prepend the new bits on the MSB side,
then flush. -/
def append_to_buffer (st : StructPackerState) (bits : Bits) :
    StructPackerState :=
  flush_buffer ⟨bits ++ st.buffer, st.bytestring⟩

/-- `StructPacker.add_padding`. -/
def add_padding (st : StructPackerState) (field : StructPadding) :
    StructPackerState :=
  append_to_buffer st (natToBits field.padding 0)

/-- `StructPacker.pack_attribute`, line for line: build the value bits (a
placeholder `0` with presence bit 0 when the value is absent, the value with
presence bit 1 when present and optional), then — for an optional field —
strip `bits[-1]` again and return with NOTHING appended when it is clear;
only the remaining bits are appended. -/
def pack_attribute (st : StructPackerState) (field : StructAttribute)
    (value : Option ValueType) : Except String StructPackerState :=
  let sized_type :=
    if field.sized_type.type = .atomic .string then UINT64
    else field.sized_type
  (show Except String Bits from
    match value with
    | none =>
      if ¬ field.is_optional then
        .error "only optional fields can have None value"
      else (value_to_bits (.int 0) sized_type).map fun bits => bits ++ [false]
    | some v =>
      (value_to_bits v sized_type).map fun bits =>
        if field.is_optional then bits ++ [true] else bits).bind
    fun bits =>
      if field.is_optional then
        match bits.getLast? with
        | none => .error "bit index out of range"
        | some is_present_bit =>
          if ¬ is_present_bit then .ok st
          else .ok (append_to_buffer st bits.dropLast)
      else .ok (append_to_buffer st bits)

/-- The field loop of `StructPacker.pack_struct` (`values[field.name]` is a
`KeyError` when the name is missing). -/
def pack_fields (values : List (String × Option ValueType)) :
    StructPackerState → List StructField → Except String StructPackerState
  | st, [] => .ok st
  | st, .pad p :: rest => pack_fields values (add_padding st p) rest
  | st, .attr a :: rest =>
    match values.find? (fun kv => kv.1 == a.name) with
    | none => .error "KeyError: missing value for attribute"
    | some kv =>
      (pack_attribute st a kv.2).bind fun st' => pack_fields values st' rest

/-- `struct_pack` from `umbi/binary/structs.py`: run the fields from an empty
packer, then `assert_buffer_empty`. -/
def struct_pack (values : List (String × Option ValueType))
    (value_sized_type : StructType) : Except String (List Nat) :=
  (pack_fields values ⟨[], []⟩ value_sized_type.fields).bind fun st =>
    if st.buffer.length > 0 then .error "expected the buffer to be empty"
    else .ok st.bytestring

/-- The struct of the spec's example: a 1-bit boolean `flag`, 7 bits of
padding, and an optional 32-bit unsigned `attribute`. -/
def exampleOptionalStruct : StructType :=
  ⟨[.attr { name := "flag", sized_type := BOOL1 },
    .pad ⟨7⟩,
    .attr { name := "attribute", sized_type := UINT32, is_optional := true }]⟩

/-- The example's values: `flag = True`, `attribute = None`. -/
def exampleValues : List (String × Option ValueType) :=
  [("flag", some (.bool true)), ("attribute", none)]

/-! ## Archive read session (`umbi/io/umb.py`, `umbi/io/tar.py`) -/

/-- State of an `UmbReader` session: the archive contents loaded up front by
`TarReader` (`filename_bytes`), the strict-mode flag, and the per-member read
tracking table. -/
structure UmbReaderState where
  filename_bytes : List (String × List Nat)
  strict_mode : Bool
  filename_read : List (String × Bool)
  deriving DecidableEq, Repr

/-- `TarReader.filenames`: the keys of the loaded archive. -/
def UmbReaderState.filenames (st : UmbReaderState) : List String :=
  st.filename_bytes.map Prod.fst

/-- `UmbReader.__init__`: every archive member starts unread
(`{filename: False for filename in self.filenames}`). -/
def UmbReader_init (filename_bytes : List (String × List Nat))
    (strict_mode : Bool) : UmbReaderState :=
  ⟨filename_bytes, strict_mode,
    (filename_bytes.map Prod.fst).map (fun f => (f, false))⟩

/-- `TarReader.read`: the member's bytes, `none` for a missing optional
member, an error (`KeyError`) for a missing required one. -/
def TarReader_read (st : UmbReaderState) (filename : String)
    (required : Bool) : Except String (Option (List Nat)) :=
  match st.filename_bytes.find? (fun kv => kv.1 == filename) with
  | some kv => .ok (some kv.2)
  | none =>
    if ¬ required then .ok none
    else .error "tar archive has no such file"

/-- `UmbReader.read`: mark the member read when it is present, then delegate
to `TarReader.read`. -/
def UmbReader_read (st : UmbReaderState) (filename : String)
    (required : Bool) :
    Except String (Option (List Nat)) × UmbReaderState :=
  let st' :=
    if filename ∈ st.filenames then
      { st with filename_read :=
          (st.filename_read.map
            (fun p => if p.1 = filename then (p.1, true) else p)) }
    else st
  (TarReader_read st' filename required, st')

/-- `UmbReader.list_unread_files`: the warned-about unread members, and the
`SchemaViolation` raised exactly when strict mode is on and some member is
unread. -/
def list_unread_files (st : UmbReaderState) :
    List String × Except String Unit :=
  let unread_files := (st.filename_read.filter (fun p => ¬ p.2)).map Prod.fst
  (unread_files,
    if st.strict_mode ∧ unread_files.length > 0 then
      .error "unrecognized files in umbfile"
    else .ok ())

/-! ## Archive writing (`umbi/io/tar.py`, `umbi/io/umb.py`) -/

/-- `TarWriter.add`: the dict assignment
`self.filename_bytes[filename] = data`, overwriting an existing entry
(with only a warning). -/
def TarWriter_add (filename_bytes : List (String × List Nat))
    (filename : String) (data : List Nat) : List (String × List Nat) :=
  if filename ∈ filename_bytes.map Prod.fst then
    filename_bytes.map (fun kv => if kv.1 = filename then (kv.1, data) else kv)
  else filename_bytes ++ [(filename, data)]

/-- Durable storage, as the trace of `TarWriter.tar_write` calls (each call
creates the tarball file with the whole accumulated contents). -/
structure Storage where
  writes : List (List (String × List Nat))
  deriving DecidableEq, Repr

/-- `TarWriter.write`: the single operation that touches durable storage. -/
def TarWriter_write (storage : Storage)
    (filename_bytes : List (String × List Nat)) : Storage :=
  ⟨storage.writes ++ [filename_bytes]⟩

/-- A section encoder as seen by `write_umb`: each `add_*_files` method of
`UmbWriter` only computes byte entries and feeds them to `TarWriter.add`
(never touching storage), or raises; it is therefore modelled by its result —
the named entries it adds, or its exception. -/
abbrev SectionEncoder := Except String (List (String × List Nat))

/-- The sequential section phase of `UmbWriter.write_umb`: run the section
encoders in order, accumulating their entries in the in-memory map via
`TarWriter.add`; the first exception aborts the whole call. -/
def runSections : List (String × List Nat) → List SectionEncoder →
    Except String (List (String × List Nat))
  | fb, [] => .ok fb
  | fb, sec :: rest =>
    match sec with
    | .error e => .error e
    | .ok entries =>
      runSections
        (entries.foldl (fun acc kv => TarWriter_add acc kv.1 kv.2) fb) rest

/-- `UmbWriter.write_umb`: add all sections to the in-memory map, then issue
the single `write` call; an exception propagates before storage is ever
touched. -/
def write_umb (sections : List SectionEncoder) (storage : Storage) :
    Storage × Except String Unit :=
  match runSections [] sections with
  | .error e => (storage, .error e)
  | .ok fb => (TarWriter_write storage fb, .ok ())

/-- `bitLengthAux` computes `Nat.size` once the fuel dominates the argument. -/
theorem bitLengthAux_le_iff :
    ∀ fuel n, n ≤ fuel → ∀ k, bitLengthAux fuel n ≤ k ↔ n < 2 ^ k := by
  intro fuel
  induction fuel with
  | zero =>
    intro n hn k
    interval_cases n
    simp only [bitLengthAux, Nat.zero_le, true_iff]
    positivity
  | succ fuel ih =>
    intro n hn k
    by_cases h0 : n = 0
    · subst h0
      simp [bitLengthAux, Nat.two_pow_pos]
    · rw [bitLengthAux, if_neg h0]
      cases k with
      | zero =>
        simp only [Nat.le_zero, Nat.add_eq_zero, Nat.pow_zero, Nat.lt_one_iff]
        omega
      | succ k =>
        have hdiv : n / 2 ≤ fuel := by omega
        rw [Nat.add_le_add_iff_right, ih (n / 2) hdiv k, Nat.pow_succ]
        constructor
        · intro h
          have := Nat.lt_mul_of_div_lt h (by norm_num)
          omega
        · intro h
          have : n / 2 < 2 ^ k := Nat.div_lt_of_lt_mul (by omega)
          exact this

theorem bitLengthAux_eq_size (fuel n : Nat) (h : n ≤ fuel) :
    bitLengthAux fuel n = Nat.size n := by
  apply Nat.le_antisymm
  · exact (bitLengthAux_le_iff fuel n h _).2 (Nat.lt_size_self n)
  · exact Nat.size_le.2 ((bitLengthAux_le_iff fuel n h _).1 le_rfl)

/-- `bit_length` agrees with `Nat.size` of the absolute value. -/
theorem bit_length_eq_size (v : Int) : bit_length v = Nat.size v.natAbs :=
  bitLengthAux_eq_size _ _ le_rfl

example : integer_to_bytes (-2) 2 = .ok [254, 255] := rfl
example : bytes_to_integer [254, 255] = -2 := by decide
example : integer_to_bytes 300 1 false = .error "integer value is out of range" := rfl
example : num_bytes_for_integer 3 = 8 := by decide

theorem leBytesOfNat_length (n w : Nat) : (leBytesOfNat n w).length = n := by
  induction n generalizing w with
  | zero => rfl
  | succ n ih => simp [leBytesOfNat, ih]

theorem leBytesToNat_leBytesOfNat (n w : Nat) (h : w < 256 ^ n) :
    leBytesToNat (leBytesOfNat n w) = w := by
  induction n generalizing w with
  | zero =>
    simp only [Nat.pow_zero, Nat.lt_one_iff] at h
    simp [h, leBytesOfNat, leBytesToNat]
  | succ n ih =>
    have hdiv : w / 256 < 256 ^ n := by
      apply Nat.div_lt_of_lt_mul
      calc w < 256 ^ (n + 1) := h
        _ = 256 * 256 ^ n := by ring
    simp only [leBytesOfNat, leBytesToNat, ih (w / 256) hdiv]
    omega

theorem intToBytesRaw_length (v : Int) (n : Nat) (s le : Bool) :
    (intToBytesRaw v n s le).length = n := by
  unfold intToBytesRaw
  by_cases h : le <;> simp [h, leBytesOfNat_length]

theorem pow_256_eq (n : Nat) : (256 : Nat) ^ n = 2 ^ (8 * n) := by
  rw [Nat.pow_mul]

/-- Helper: decoding is a left inverse of raw two's-complement encoding on
in-range values. -/
theorem bytes_to_integer_intToBytesRaw (v : Int) (n : Nat) (s le : Bool)
    (hn : 1 ≤ n) (hfit : integer_fits_bits v s (n * 8)) :
    bytes_to_integer (intToBytesRaw v n s le) s le = v := by
  have hmul : n * 8 = 8 * n := Nat.mul_comm n 8
  unfold integer_fits_bits at hfit
  rw [hmul] at hfit
  have hc : ((2 ^ (8 * n) : Nat) : Int) = (2 : Int) ^ (8 * n) := by push_cast; ring
  have hc1 : ((2 ^ (8 * n - 1) : Nat) : Int) = (2 : Int) ^ (8 * n - 1) := by
    push_cast; ring
  have hbpos : (0 : Int) < 2 ^ (8 * n - 1) := by positivity
  have hsplit : (2 : Int) ^ (8 * n) = 2 ^ (8 * n - 1) + 2 ^ (8 * n - 1) := by
    have h1 : 8 * n - 1 + 1 = 8 * n := by omega
    calc (2 : Int) ^ (8 * n) = 2 ^ (8 * n - 1 + 1) := by rw [h1]
      _ = 2 ^ (8 * n - 1) * 2 := pow_succ _ _
      _ = _ := by ring
  set w : Nat := (if s = true ∧ v < 0 then v + 2 ^ (8 * n) else v).toNat with hw
  -- how the decoder's branch relates the stored natural `w` to `v`
  have hwspec : ((w : Int) = v ∧ ¬ (s = true ∧ 2 ^ (8 * n - 1) ≤ w)) ∨
      ((w : Int) = v + 2 ^ (8 * n) ∧ s = true ∧ 2 ^ (8 * n - 1) ≤ w) := by
    by_cases hneg : s = true ∧ v < 0
    · right
      rw [if_pos hneg] at hw
      simp only [hneg.1, if_true] at hfit
      refine ⟨by omega, hneg.1, by omega⟩
    · left
      rw [if_neg hneg] at hw
      rcases Bool.dichotomy s with hs | hs
      · simp only [hs, Bool.false_eq_true, if_false] at hfit
        simp only [hs, Bool.false_eq_true, false_and, not_false_eq_true,
          and_true]
        omega
      · simp only [hs, if_true] at hfit
        have hv0 : 0 ≤ v := by
          rcases not_and_or.mp hneg with h | h
          · exact absurd hs h
          · omega
        refine ⟨by omega, ?_⟩
        rintro ⟨-, hge⟩
        omega
  have hwlt : w < 2 ^ (8 * n) := by
    rcases hwspec with ⟨hweq, -⟩ | ⟨hweq, hs, -⟩
    · rcases Bool.dichotomy s with hs | hs
      · simp only [hs, Bool.false_eq_true, if_false] at hfit
        omega
      · simp only [hs, if_true] at hfit
        omega
    · simp only [hs, if_true] at hfit
      omega
  have hle : leBytesToNat (leBytesOfNat n w) = w :=
    leBytesToNat_leBytesOfNat n w (by rw [pow_256_eq]; exact hwlt)
  have hlen : (leBytesOfNat n w).length = n := leBytesOfNat_length n w
  have hfin : ∀ u : Nat, u = leBytesToNat (leBytesOfNat n w) →
      (if s = true ∧ 2 ^ (8 * n - 1) ≤ u then (u : Int) - 2 ^ (8 * n)
       else (u : Int)) = v := by
    intro u hu
    rw [hle] at hu
    subst hu
    rcases hwspec with ⟨hweq, hcond⟩ | ⟨hweq, hs2, hge⟩
    · rw [if_neg hcond]
      exact hweq
    · rw [if_pos ⟨hs2, hge⟩]
      omega
  rcases Bool.dichotomy le with hl | hl <;> subst hl
  · show bytes_to_integer (intToBytesRaw v n s false) s false = v
    simp only [bytes_to_integer, intToBytesRaw, ← hw, Bool.false_eq_true,
      if_false, List.reverse_reverse, List.length_reverse, hlen, hle]
    exact hfin _ hle.symm
  · show bytes_to_integer (intToBytesRaw v n s true) s true = v
    simp only [bytes_to_integer, intToBytesRaw, ← hw, if_true, hlen, hle]
    exact hfin _ hle.symm

/-- C5: for every integer `v`, byte count `n ≥ 1`, signedness and endianness,
`integer_to_bytes` succeeds exactly when `v` lies in the representable range
(signed: `-2^(8n-1) ≤ v ≤ 2^(8n-1)-1`; unsigned: `0 ≤ v ≤ 2^(8n)-1`), and on
success `bytes_to_integer` with the same signedness and endianness recovers
`v`. -/
theorem integer_to_bytes_roundtrip (v : Int) (n : Nat) (signed little : Bool)
    (hn : 1 ≤ n) :
    ((∃ bs, integer_to_bytes v n signed little = .ok bs) ↔
      (if signed then
        -(2 : Int) ^ (8 * n - 1) ≤ v ∧ v ≤ 2 ^ (8 * n - 1) - 1
      else 0 ≤ v ∧ v ≤ 2 ^ (8 * n) - 1)) ∧
    (∀ bs, integer_to_bytes v n signed little = .ok bs →
      bytes_to_integer bs signed little = v) := by
  have hfit_iff : integer_fits_bits v signed (n * 8) ↔
      (if signed then
        -(2 : Int) ^ (8 * n - 1) ≤ v ∧ v ≤ 2 ^ (8 * n - 1) - 1
      else 0 ≤ v ∧ v ≤ 2 ^ (8 * n) - 1) := by
    unfold integer_fits_bits
    have h1 : n * 8 - 1 = 8 * n - 1 := by omega
    have h2 : n * 8 = 8 * n := by omega
    rw [h1, h2]
  constructor
  · rw [← hfit_iff]
    constructor
    · rintro ⟨bs, hbs⟩
      by_contra hnot
      unfold integer_to_bytes at hbs
      rw [if_neg hnot] at hbs
      exact Except.noConfusion hbs
    · intro hfit
      exact ⟨_, by unfold integer_to_bytes; rw [if_pos hfit]⟩
  · intro bs hbs
    unfold integer_to_bytes at hbs
    by_cases hfit : integer_fits_bits v signed (n * 8)
    · rw [if_pos hfit] at hbs
      cases hbs
      exact bytes_to_integer_intToBytesRaw v n signed little hn hfit
    · rw [if_neg hfit] at hbs
      exact Except.noConfusion hbs

/-- Witness for `integer_to_bytes_roundtrip` at `v = -2`, `n = 2`, signed,
little-endian. -/
theorem integer_to_bytes_roundtrip_witness :
    ((∃ bs, integer_to_bytes (-2) 2 true true = .ok bs) ↔
      (-(2 : Int) ^ (8 * 2 - 1) ≤ -2 ∧ (-2 : Int) ≤ 2 ^ (8 * 2 - 1) - 1)) ∧
    (∀ bs, integer_to_bytes (-2) 2 true true = .ok bs →
      bytes_to_integer bs true true = -2) :=
  integer_to_bytes_roundtrip (-2) 2 true true (by norm_num)

theorem csrNondec_cons_cons (a b : Int) (l : List Int) :
    csrNondec (a :: b :: l) = (decide (a ≤ b) && csrNondec (b :: l)) := rfl

theorem csrNondec_single (a : Int) : csrNondec [a] = true := rfl

theorem rangesChainOk_cons_cons (p q : Int × Int) (l : List (Int × Int)) :
    rangesChainOk (p :: q :: l) =
      (decide (p.2 = q.1) && rangesChainOk (q :: l)) := rfl

theorem is_vector_ranges_iff (rs : List (Int × Int)) :
    is_vector_ranges rs = true ↔
      rs ≠ [] ∧ rs.all (fun x => decide (x.1 ≤ x.2)) = true ∧
        rangesChainOk rs = true := by
  unfold is_vector_ranges
  by_cases h1 : rs.length = 0
  · rw [if_pos h1]
    have h : rs = [] := List.length_eq_zero.mp h1
    subst h
    simp
  · rw [if_neg h1]
    by_cases h2 : rs.all (fun x => decide (x.1 ≤ x.2)) = true
    · rw [if_neg (not_not_intro h2)]
      have hne : rs ≠ [] := by
        intro h
        subst h
        simp at h1
      constructor
      · intro h
        exact ⟨hne, h2, h⟩
      · intro h
        exact h.2.2
    · rw [if_pos h2]
      simp only [Bool.false_eq_true, false_iff, not_and]
      intro _ h
      exact absurd h h2

theorem is_vector_csr_iff (v : List Int) :
    is_vector_csr v = true ↔
      2 ≤ v.length ∧ v.head? = some 0 ∧ csrNondec v = true := by
  unfold is_vector_csr
  by_cases h1 : v.length < 2
  · rw [if_pos h1]
    simp only [Bool.false_eq_true, false_iff, not_and]
    intro h
    omega
  · rw [if_neg h1]
    by_cases h2 : v.head? = some 0
    · rw [if_neg (not_not_intro h2)]
      constructor
      · intro h
        exact ⟨by omega, h2, h⟩
      · intro h
        exact h.2.2
    · rw [if_pos h2]
      simp only [Bool.false_eq_true, false_iff, not_and]
      intro _ h
      exact absurd h h2

theorem rangesCsr_csrPairs :
    ∀ (a b : Int) (rest : List Int),
      rangesCsr (csrPairs (a :: b :: rest)) = a :: b :: rest := by
  intro a b rest
  induction rest generalizing a b with
  | nil => rfl
  | cons c rest ih =>
    have h1 : rangesCsr (csrPairs (a :: b :: c :: rest)) =
        a :: rangesCsr (csrPairs (b :: c :: rest)) := rfl
    rw [h1, ih b c]

/-- The pair list built by `csr_to_ranges` from a non-decreasing CSR vector
passes both element-wise checks of `is_vector_ranges`. -/
theorem csrPairs_wf :
    ∀ (a b : Int) (rest : List Int), csrNondec (a :: b :: rest) = true →
      ((csrPairs (a :: b :: rest)).all (fun x => decide (x.1 ≤ x.2)) = true ∧
        rangesChainOk (csrPairs (a :: b :: rest)) = true) := by
  intro a b rest
  induction rest generalizing a b with
  | nil =>
    intro h
    rw [csrNondec_cons_cons] at h
    simp only [Bool.and_eq_true, decide_eq_true_eq] at h
    refine ⟨?_, rfl⟩
    show List.all [(a, b)] (fun x => decide (x.1 ≤ x.2)) = true
    simp [h.1]
  | cons c rest ih =>
    intro h
    rw [csrNondec_cons_cons] at h
    simp only [Bool.and_eq_true, decide_eq_true_eq] at h
    obtain ⟨hab, h2⟩ := h
    obtain ⟨ha, hc⟩ := ih b c h2
    constructor
    · have h3 : csrPairs (a :: b :: c :: rest) =
          (a, b) :: csrPairs (b :: c :: rest) := rfl
      rw [h3, List.all_cons, ha]
      simp [hab]
    · have h3 : csrPairs (a :: b :: c :: rest) =
          (a, b) :: (b, c) :: csrPairs (c :: rest) := rfl
      rw [h3, rangesChainOk_cons_cons]
      have h4 : (b, c) :: csrPairs (c :: rest) = csrPairs (b :: c :: rest) :=
        rfl
      rw [h4, hc]
      simp

theorem is_vector_ranges_csrPairs (csr : List Int)
    (hcsr : is_vector_csr csr = true) :
    is_vector_ranges (csrPairs csr) = true := by
  obtain ⟨hlen, hhead, hnd⟩ := (is_vector_csr_iff csr).mp hcsr
  cases csr with
  | nil => exact absurd hlen (by simp)
  | cons a t =>
    cases t with
    | nil => exact absurd hlen (by simp)
    | cons b rest =>
      obtain ⟨hall, hchain⟩ := csrPairs_wf a b rest hnd
      refine (is_vector_ranges_iff _).mpr ⟨?_, hall, hchain⟩
      have h3 : csrPairs (a :: b :: rest) = (a, b) :: csrPairs (b :: rest) :=
        rfl
      simp [h3]

theorem csrPairs_rangesCsr :
    ∀ (rs : List (Int × Int)), rs ≠ [] → rangesChainOk rs = true →
      csrPairs (rangesCsr rs) = rs := by
  intro rs
  induction rs with
  | nil =>
    intro h _
    exact absurd rfl h
  | cons p rest ih =>
    intro _ hchain
    obtain ⟨a, b⟩ := p
    cases rest with
    | nil => rfl
    | cons q rest' =>
      obtain ⟨c, d⟩ := q
      rw [rangesChainOk_cons_cons] at hchain
      simp only [Bool.and_eq_true, decide_eq_true_eq] at hchain
      obtain ⟨hbc, hch⟩ := hchain
      have hrec := ih (by simp) hch
      have h1 : rangesCsr ((a, b) :: (c, d) :: rest') =
          a :: rangesCsr ((c, d) :: rest') := rfl
      have h2 : ∃ t, rangesCsr ((c, d) :: rest') = c :: t := by
        cases rest' with
        | nil => exact ⟨[d], rfl⟩
        | cons u v => exact ⟨rangesCsr (u :: v), rfl⟩
      obtain ⟨t, ht⟩ := h2
      rw [h1, ht]
      have h3 : csrPairs (a :: c :: t) = (a, c) :: csrPairs (c :: t) := rfl
      rw [h3, ← ht, hrec, hbc]

/-- The CSR vector built by `ranges_to_csr` from a valid range list is
non-decreasing, has at least two entries, and starts with the first range's
start. -/
theorem rangesCsr_props :
    ∀ (rs : List (Int × Int)), rs ≠ [] →
      rs.all (fun x => decide (x.1 ≤ x.2)) = true → rangesChainOk rs = true →
      csrNondec (rangesCsr rs) = true ∧ 2 ≤ (rangesCsr rs).length ∧
        (rangesCsr rs).head? = rs.head?.map Prod.fst := by
  intro rs
  induction rs with
  | nil =>
    intro h _ _
    exact absurd rfl h
  | cons p rest ih =>
    intro _ hall hchain
    obtain ⟨a, b⟩ := p
    cases rest with
    | nil =>
      simp only [List.all_cons, List.all_nil, Bool.and_true,
        decide_eq_true_eq] at hall
      refine ⟨?_, by simp [rangesCsr], by simp [rangesCsr]⟩
      show csrNondec [a, b] = true
      rw [csrNondec_cons_cons]
      simp [hall, csrNondec_single]
    | cons q rest' =>
      obtain ⟨c, d⟩ := q
      simp only [List.all_cons, Bool.and_eq_true, decide_eq_true_eq] at hall
      rw [rangesChainOk_cons_cons] at hchain
      simp only [Bool.and_eq_true, decide_eq_true_eq] at hchain
      obtain ⟨hbc, hch⟩ := hchain
      have hall2 : ((c, d) :: rest').all (fun x => decide (x.1 ≤ x.2)) =
          true := by
        simp only [List.all_cons, Bool.and_eq_true, decide_eq_true_eq]
        exact ⟨hall.2.1, hall.2.2⟩
      obtain ⟨hnd, hlen, -⟩ := ih (by simp) hall2 hch
      have h1 : rangesCsr ((a, b) :: (c, d) :: rest') =
          a :: rangesCsr ((c, d) :: rest') := rfl
      have h2 : ∃ t, rangesCsr ((c, d) :: rest') = c :: t := by
        cases rest' with
        | nil => exact ⟨[d], rfl⟩
        | cons u v => exact ⟨rangesCsr (u :: v), rfl⟩
      obtain ⟨t, ht⟩ := h2
      rw [h1, ht]
      rw [ht] at hnd hlen
      refine ⟨?_, ?_, by simp⟩
      · rw [csrNondec_cons_cons]
        simp only [Bool.and_eq_true, decide_eq_true_eq]
        have hab : a ≤ b := hall.1
        exact ⟨by omega, hnd⟩
      · simp only [List.length_cons] at hlen ⊢
        omega

theorem is_vector_csr_rangesCsr (rs : List (Int × Int))
    (hr : is_vector_ranges rs = true)
    (h0 : rs.head?.map Prod.fst = some 0) :
    is_vector_csr (rangesCsr rs) = true := by
  obtain ⟨hne, hall, hchain⟩ := (is_vector_ranges_iff rs).mp hr
  obtain ⟨hnd, hlen, hhead⟩ := rangesCsr_props rs hne hall hchain
  refine (is_vector_csr_iff _).mpr ⟨hlen, ?_, hnd⟩
  rw [hhead, h0]

/-- C6: `csr_to_ranges` and `ranges_to_csr` are mutually inverse on
well-formed inputs — every valid CSR vector (first element 0, non-decreasing,
length ≥ 2) round-trips through ranges, every non-empty valid range list
starting at 0 round-trips through CSR, and in particular
`csr_to_ranges [0,2,5] = [(0,2),(2,5)]` and
`ranges_to_csr [(0,2),(2,5)] = [0,2,5]`. -/
theorem csr_ranges_roundtrip :
    (∀ csr : List Int, is_vector_csr csr = true →
      (csr_to_ranges csr).bind ranges_to_csr = .ok csr) ∧
    (∀ rs : List (Int × Int), is_vector_ranges rs = true →
      rs.head?.map Prod.fst = some 0 →
      (ranges_to_csr rs).bind csr_to_ranges = .ok rs) ∧
    csr_to_ranges [0, 2, 5] = .ok [(0, 2), (2, 5)] ∧
    ranges_to_csr [(0, 2), (2, 5)] = .ok [0, 2, 5] := by
  refine ⟨?_, ?_, rfl, rfl⟩
  · intro csr hcsr
    unfold csr_to_ranges
    rw [if_pos hcsr]
    show ranges_to_csr (csrPairs csr) = .ok csr
    unfold ranges_to_csr
    rw [if_pos (is_vector_ranges_csrPairs csr hcsr)]
    obtain ⟨hlen, -, -⟩ := (is_vector_csr_iff csr).mp hcsr
    cases csr with
    | nil => exact absurd hlen (by simp)
    | cons a t =>
      cases t with
      | nil => exact absurd hlen (by simp)
      | cons b rest => rw [rangesCsr_csrPairs]
  · intro rs hr h0
    unfold ranges_to_csr
    rw [if_pos hr]
    show csr_to_ranges (rangesCsr rs) = .ok rs
    unfold csr_to_ranges
    rw [if_pos (is_vector_csr_rangesCsr rs hr h0)]
    obtain ⟨hne, -, hchain⟩ := (is_vector_ranges_iff rs).mp hr
    rw [csrPairs_rangesCsr rs hne hchain]

/-- Witness for `csr_ranges_roundtrip` at the concrete inputs `[0,2,5]` and
`[(0,2),(2,5)]`. -/
theorem csr_ranges_roundtrip_witness :
    (csr_to_ranges [0, 2, 5]).bind ranges_to_csr = .ok [0, 2, 5] ∧
    (ranges_to_csr [(0, 2), (2, 5)]).bind csr_to_ranges =
      .ok [(0, 2), (2, 5)] :=
  ⟨csr_ranges_roundtrip.1 [0, 2, 5] (by decide),
   csr_ranges_roundtrip.2.1 [(0, 2), (2, 5)] (by decide) (by decide)⟩

/-! ## Theorems about the type-promotion lattice -/

theorem interval_base_of_base (p : NumericPrimitiveType) :
    interval_base_type (base_to_interval_type p) = p := by
  cases p <;> rfl

theorem common_numeric_primitive_type_eq (s : Finset NumericPrimitiveType)
    (h : s ≠ ∅) :
    common_numeric_primitive_type s = some (spec_priority s) := by
  unfold common_numeric_primitive_type spec_priority
  rw [if_neg h]
  split_ifs <;> rfl

/-- `common_numeric_type` on a non-empty all-numeric set resolves to the
priority of the members' base types, lifted to an interval type exactly when
some member is an interval type. -/
theorem common_numeric_type_eq (ts : Finset DataType) (hne : ts ≠ ∅)
    (hnum : ∀ t ∈ ts, t.isNumeric) :
    common_numeric_type ts =
      (if ∃ t ∈ ts, t.isIntervalType then
        some (.itv (base_to_interval_type (spec_priority (ts.image spec_base))))
      else some (.prim (spec_priority (ts.image spec_base)))) := by
  have hnonempty : ts.Nonempty := Finset.nonempty_iff_ne_empty.mpr hne
  unfold common_numeric_type
  rw [if_neg hne, if_neg (not_not_intro hnum)]
  by_cases hitv : ∃ t ∈ ts, t.isIntervalType
  · rw [if_pos hitv, if_pos hitv]
    unfold common_interval_type
    have himg_ne : ts.image (fun t => (DataType.toIntervalType t).getD .int)
        ≠ ∅ :=
      Finset.nonempty_iff_ne_empty.mp (hnonempty.image _)
    rw [if_neg himg_ne]
    rw [Finset.image_image]
    have hcongr : ts.image
        (interval_base_type ∘ fun t => (DataType.toIntervalType t).getD .int)
        = ts.image spec_base := by
      apply Finset.image_congr
      intro t ht
      have := hnum t ht
      cases t with
      | atomic a => simp [DataType.isNumeric] at this
      | prim p =>
        show interval_base_type (base_to_interval_type p) = p
        exact interval_base_of_base p
      | itv i => rfl
    rw [hcongr,
      common_numeric_primitive_type_eq _
        (Finset.nonempty_iff_ne_empty.mp (hnonempty.image _))]
    rfl
  · rw [if_neg hitv, if_neg hitv]
    have hcongr : ts.image (fun t => (DataType.toPrim t).getD .int)
        = ts.image spec_base := by
      apply Finset.image_congr
      intro t ht
      have hn := hnum t ht
      have hni : ¬ t.isIntervalType := by
        intro h
        exact hitv ⟨t, ht, h⟩
      cases t with
      | atomic a => simp [DataType.isNumeric] at hn
      | prim p => rfl
      | itv i => simp [DataType.isIntervalType] at hni
    rw [hcongr,
      common_numeric_primitive_type_eq _
        (Finset.nonempty_iff_ne_empty.mp (hnonempty.image _))]
    rfl

/-- C7: for every non-empty set of `DataType`s, `common_datatype` returns
String if String is a member, Boolean if the set is exactly `{Boolean}`, and
otherwise drops Boolean and resolves the remaining numeric types by the
priority Rational > Double > SignedInt > UnsignedInt over their bases, as an
Interval type whenever any member is an Interval type; in particular
`common_datatype {t} = t` for every `t`. -/
theorem common_datatype_follows_spec :
    (∀ types : Finset DataType, types.Nonempty →
      common_datatype types = spec_common_datatype types) ∧
    (∀ t : DataType, common_datatype {t} = some t) := by
  have main : ∀ types : Finset DataType, types.Nonempty →
      common_datatype types = spec_common_datatype types := by
    intro types hne
    have hne' : types ≠ ∅ := Finset.nonempty_iff_ne_empty.mp hne
    show (common_datatype_state types).1 = _
    unfold common_datatype_state spec_common_datatype
    rw [if_neg hne']
    by_cases hstr : DataType.atomic .string ∈ types
    · rw [if_pos hstr, if_pos hstr]
    · rw [if_neg hstr, if_neg hstr]
      by_cases hbool : DataType.atomic .bool ∈ types
      · rw [if_pos hbool]
        by_cases hcard : types.card = 1
        · rw [if_pos hcard]
          have hsingle : types = {DataType.atomic .bool} := by
            obtain ⟨a, ha⟩ := Finset.card_eq_one.mp hcard
            rw [ha] at hbool ⊢
            rw [Finset.mem_singleton.mp hbool]
          rw [if_pos hsingle]
        · rw [if_neg hcard]
          have hsingle : types ≠ {DataType.atomic .bool} := by
            intro h
            exact hcard (by rw [h]; rfl)
          rw [if_neg hsingle]
          have hcard2 : 2 ≤ types.card := by
            have h1 : 1 ≤ types.card := Finset.card_pos.mpr hne
            omega
          have herase_ne : types.erase (.atomic .bool) ≠ ∅ := by
            apply Finset.nonempty_iff_ne_empty.mp
            apply Finset.card_pos.mp
            rw [Finset.card_erase_of_mem hbool]
            omega
          have herase_num : ∀ t ∈ types.erase (.atomic .bool), t.isNumeric := by
            intro t ht
            obtain ⟨hne_b, hmem⟩ := Finset.mem_erase.mp ht
            cases t with
            | atomic a =>
              cases a with
              | bool => exact absurd rfl hne_b
              | string => exact absurd hmem hstr
            | prim p => rfl
            | itv i => rfl
          exact common_numeric_type_eq _ herase_ne herase_num
      · rw [if_neg hbool]
        have hsingle : types ≠ {DataType.atomic .bool} := by
          intro h
          rw [h] at hbool
          exact hbool (Finset.mem_singleton_self _)
        rw [if_neg hsingle]
        have herase : types.erase (DataType.atomic .bool) = types :=
          Finset.erase_eq_of_not_mem hbool
        rw [herase]
        have hnum : ∀ t ∈ types, t.isNumeric := by
          intro t ht
          cases t with
          | atomic a =>
            cases a with
            | bool => exact absurd ht hbool
            | string => exact absurd ht hstr
          | prim p => rfl
          | itv i => rfl
        exact common_numeric_type_eq _ hne' hnum
  refine ⟨main, ?_⟩
  intro t
  rw [main {t} (Finset.singleton_nonempty t)]
  cases t with
  | atomic a => cases a <;> rfl
  | prim p => cases p <;> rfl
  | itv i => cases i <;> rfl

/-- Witness for `common_datatype_follows_spec` at the concrete set
`{Boolean, SignedInt}`. -/
theorem common_datatype_follows_spec_witness :
    common_datatype {DataType.atomic .bool, DataType.prim .int} =
      spec_common_datatype {DataType.atomic .bool, DataType.prim .int} :=
  common_datatype_follows_spec.1 {DataType.atomic .bool, DataType.prim .int}
    ⟨DataType.atomic .bool, by decide⟩

/-- C10: `common_datatype` mutates its argument — whenever the set contains
Boolean together with at least one other type and no String, the call removes
Boolean from the caller's set, leaving a strictly smaller set. -/
theorem common_datatype_mutates_argument (types : Finset DataType)
    (hb : DataType.atomic .bool ∈ types)
    (hs : DataType.atomic .string ∉ types)
    (hcard : 2 ≤ types.card) :
    (common_datatype_state types).2 = types.erase (.atomic .bool) ∧
      (common_datatype_state types).2.card < types.card := by
  have hne : types ≠ ∅ := by
    intro h
    rw [h] at hcard
    simp at hcard
  unfold common_datatype_state
  rw [if_neg hne, if_neg hs, if_pos hb, if_neg (by omega)]
  refine ⟨rfl, ?_⟩
  show (types.erase (.atomic .bool)).card < types.card
  rw [Finset.card_erase_of_mem hb]
  omega

/-- Witness for `common_datatype_mutates_argument` at the concrete set
`{Boolean, SignedInt}`. -/
theorem common_datatype_mutates_argument_witness :
    (common_datatype_state {DataType.atomic .bool, DataType.prim .int}).2 =
      ({DataType.atomic .bool, DataType.prim .int} : Finset DataType).erase
        (.atomic .bool) ∧
    (common_datatype_state {DataType.atomic .bool, DataType.prim .int}).2.card
      < ({DataType.atomic .bool, DataType.prim .int} : Finset DataType).card :=
  common_datatype_mutates_argument _ (by decide) (by decide) (by decide)

/-! ## Theorems about the rational codec and sized types -/

theorem normalize_rational_eq (q : Rat) : normalize_rational q = q := by
  unfold normalize_rational
  rw [if_neg]
  simp only [not_lt]
  exact_mod_cast Nat.zero_le q.den

theorem num_bits_mod8 (v : Int) (s : Bool) :
    num_bits_for_integer v s true % 8 = 0 := by
  simp only [num_bits_for_integer]
  set nb := (if ¬ s = true then bit_length v
    else (if v ≥ 0 then bit_length v else bit_length (-v - 1)) + 1) with hnb
  by_cases h : nb % 8 = 0
  · rw [if_neg (by simp [h])]
    exact h
  · rw [if_pos (by simp [h])]
    omega

theorem num_bits_raw_le_rounded (v : Int) (s : Bool) :
    num_bits_for_integer v s false ≤ num_bits_for_integer v s true := by
  simp only [num_bits_for_integer]
  set nb := (if ¬ s = true then bit_length v
    else (if v ≥ 0 then bit_length v else bit_length (-v - 1)) + 1) with hnb
  rw [if_neg (by simp)]
  by_cases h : nb % 8 = 0
  · rw [if_neg (by simp [h])]
  · rw [if_pos (by simp [h])]
    omega

theorem num_bits_le_8_mul_num_bytes (v : Int) (s : Bool) :
    num_bits_for_integer v s true ≤ 8 * num_bytes_for_integer v s true := by
  have h8 := num_bits_mod8 v s
  simp only [num_bytes_for_integer]
  by_cases h : (num_bits_for_integer v s true / 8) % 8 = 0
  · rw [if_neg (by simp [h])]
    omega
  · rw [if_pos (by simp [h])]
    omega

theorem one_le_num_bytes_signed (v : Int) :
    1 ≤ num_bytes_for_integer v true true := by
  have h8 := num_bits_mod8 v true
  have hraw : 1 ≤ num_bits_for_integer v true false := by
    simp only [num_bits_for_integer]
    rw [if_neg (by simp)]
    rw [if_neg (by simp)]
    omega
  have hle := num_bits_raw_le_rounded v true
  simp only [num_bytes_for_integer]
  by_cases h : (num_bits_for_integer v true true / 8) % 8 = 0
  · rw [if_neg (by simp [h])]
    omega
  · rw [if_pos (by simp [h])]
    omega

/-- If the un-rounded minimal bit count fits in `B` bits, the value passes the
`assert_integer_fits` range check at `B` bits. -/
theorem fits_of_raw_bits_le (v : Int) (s : Bool) (B : Nat) (hB : 1 ≤ B)
    (h0 : s = false → 0 ≤ v)
    (h : num_bits_for_integer v s false ≤ B) :
    integer_fits_bits v s B := by
  have hc1 : ((2 ^ (B - 1) : Nat) : Int) = (2 : Int) ^ (B - 1) := by
    push_cast; ring
  have hcB : ((2 ^ B : Nat) : Int) = (2 : Int) ^ B := by push_cast; ring
  simp only [num_bits_for_integer] at h
  rw [if_neg (by simp)] at h
  unfold integer_fits_bits
  rcases Bool.dichotomy s with hs | hs <;> subst hs
  · rw [if_neg (by simp)]
    have hv0 : 0 ≤ v := h0 rfl
    rw [if_pos (by simp)] at h
    rw [bit_length_eq_size] at h
    have hlt : v.natAbs < 2 ^ B := Nat.size_le.mp h
    omega
  · rw [if_pos rfl]
    rw [if_neg (by simp)] at h
    by_cases hv : v ≥ 0
    · rw [if_pos hv] at h
      rw [bit_length_eq_size] at h
      have hlt : v.natAbs < 2 ^ (B - 1) := Nat.size_le.mp (by omega)
      omega
    · rw [if_neg hv] at h
      rw [bit_length_eq_size] at h
      have hlt : (-v - 1).natAbs < 2 ^ (B - 1) := Nat.size_le.mp (by omega)
      omega

/-- If the 8-byte-rounded byte count of `num_bytes_for_integer` fits in `t`
bytes, the value passes the range check at `t * 8` bits. -/
theorem fits_of_num_bytes_le (v : Int) (s : Bool) (t : Nat) (ht : 1 ≤ t)
    (h0 : s = false → 0 ≤ v)
    (h : num_bytes_for_integer v s true ≤ t) :
    integer_fits_bits v s (t * 8) := by
  apply fits_of_raw_bits_le v s (t * 8) (by omega) h0
  calc num_bits_for_integer v s false
      ≤ num_bits_for_integer v s true := num_bits_raw_le_rounded v s
    _ ≤ 8 * num_bytes_for_integer v s true := num_bits_le_8_mul_num_bytes v s
    _ ≤ 8 * t := by omega
    _ = t * 8 := by ring

/-- C3 (amended): `rational_to_bytes` succeeds — producing
`2 * term_size_bytes` bytes — exactly when the declared term size is at least
each term's byte count as computed by `num_bytes_for_integer` with
`round_to_8`, i.e. rounded up to a multiple of 8 *bytes*; in particular the
rounding makes `3/4` need 8-byte terms, so a 1-byte term size fails. -/
theorem rational_to_bytes_ok_iff (q : Rat) (t : Nat) (le : Bool) :
    (∃ bs, rational_to_bytes q t le = .ok bs ∧ bs.length = 2 * t) ↔
      (num_bytes_for_integer q.num true true ≤ t ∧
        num_bytes_for_integer (q.den : Int) false true ≤ t) := by
  have hmin : num_bytes_for_rational q / 2 =
      max (num_bytes_for_integer q.num true true)
        (num_bytes_for_integer (q.den : Int) false true) := by
    simp only [num_bytes_for_rational]
    omega
  constructor
  · rintro ⟨bs, hbs, -⟩
    simp only [rational_to_bytes, normalize_rational_eq] at hbs
    by_cases hlt : t < num_bytes_for_rational q / 2
    · rw [if_pos hlt] at hbs
      exact Except.noConfusion hbs
    · rw [hmin] at hlt
      constructor <;> omega
  · rintro ⟨hn, hd⟩
    have ht1 : 1 ≤ t := le_trans (one_le_num_bytes_signed q.num) hn
    have hfitn : integer_fits_bits q.num true (t * 8) :=
      fits_of_num_bytes_le q.num true t ht1 (by intro h; simp at h) hn
    have hfitd : integer_fits_bits (q.den : Int) false (t * 8) :=
      fits_of_num_bytes_le _ false t ht1 (fun _ => Int.natCast_nonneg _) hd
    refine ⟨intToBytesRaw q.num t true le ++
      intToBytesRaw (q.den : Int) t false le, ?_, ?_⟩
    · simp only [rational_to_bytes, normalize_rational_eq, hmin]
      rw [if_neg (by omega)]
      simp only [integer_to_bytes, if_pos hfitn, if_pos hfitd]
      rfl
    · rw [List.length_append, intToBytesRaw_length, intToBytesRaw_length]
      ring

theorem three_quarters_eq : (3 / 4 : Rat) = ratThreeQuarters := by
  have h : ratThreeQuarters = Rat.divInt 3 4 := by
    unfold ratThreeQuarters
    rw [Rat.mk'_eq_divInt]
    norm_num
  rw [h, Rat.divInt_eq_div]
  norm_num

/-- C3 counterexample: the claim's example `rational_to_bytes(3/4, 1)` does
not succeed — the 8-byte rounding of `num_bytes_for_integer` makes the
minimal term size 8, so the call raises a range error. -/
theorem rational_three_quarters_one_byte_fails :
    rational_to_bytes (3 / 4 : Rat) 1 true =
      .error "term_size is too small to represent the rational" := by
  rw [three_quarters_eq]
  rfl

set_option maxRecDepth 4000 in
/-- C2 (evaluating the code at the failing input): for the rational `3/4`
declared at 128 bits — `size_bytes = 16` — `numeric_primitive_to_bytes`
produces 32 bytes, twice the declared width, because the RATIONAL branch
passes the full `size_bytes` as the per-term size of `rational_to_bytes`
instead of half of it. -/
theorem numeric_primitive_rational_double_width :
    (numeric_primitive_to_bytes (.frac (3 / 4))
        (SizedType_init (.prim .rational) (some 128)) true).map List.length =
      .ok 32 ∧
    (SizedType_init (.prim .rational) (some 128)).size_bytes = 16 := by
  rw [three_quarters_eq]
  exact ⟨rfl, rfl⟩

/-- C4 (evaluating the code at the failing input): constructing
`SizedType(DOUBLE, 32)` succeeds and yields the width-violating value — no
validation runs at construction, because the hand-written `__init__`
suppresses the dataclass initializer that would call `__post_init__` /
`validate` — even though `SizedType.validate` rejects width 32 for Double. -/
theorem sized_type_invalid_width_not_rejected :
    SizedType_init (.prim .double) (some 32) =
      { type := .prim .double, size_bits := 32 } ∧
    (SizedType_init (.prim .double) (some 32)).validate =
      .error "double size must be 64" :=
  ⟨rfl, rfl⟩

/-! ## Theorems about the struct codec -/

set_option maxRecDepth 4000 in
/-- C1 (evaluating the code at the failing input): packing the spec's example
struct — 1-bit boolean flag (true), 7 bits of padding, optional 32-bit
unsigned attribute with value `None` — produces exactly ONE byte, `[0x01]`,
not 5: `pack_attribute` strips the presence bit it just appended and returns
without appending anything for an absent optional value.  Unpacking an
explicit 5-byte string (flag byte + 4 placeholder bytes) does yield
`flag = true` and `None`, so the packer's output cannot round-trip through
the unpacker. -/
theorem struct_pack_optional_absent_one_byte :
    struct_pack exampleValues exampleOptionalStruct = .ok [1] ∧
    struct_unpack [1, 0, 0, 0, 0] exampleOptionalStruct =
      .ok [("flag", some (.bool true)), ("attribute", none)] :=
  ⟨rfl, rfl⟩

/-! ## Theorems about the archive sessions -/

theorem lookup_mark_read_self :
    ∀ (l : List (String × Bool)) (name : String),
      name ∈ l.map Prod.fst →
      List.lookup name
        (l.map fun p => if p.1 = name then (p.1, true) else p) = some true := by
  intro l name
  induction l with
  | nil => simp
  | cons kv rest ih =>
    obtain ⟨k, v⟩ := kv
    intro hmem
    rw [List.map_cons]
    by_cases hk : k = name
    · subst hk
      rw [if_pos (show (k, v).1 = k from rfl)]
      simp [List.lookup_cons]
    · rw [if_neg (show ¬ (k, v).1 = name from hk)]
      have hbeq : (name == k) = false := beq_false_of_ne fun h => hk h.symm
      rw [List.lookup_cons, hbeq]
      show List.lookup name
        (rest.map fun p => if p.1 = name then (p.1, true) else p) = some true
      apply ih
      simp only [List.map_cons, List.mem_cons] at hmem
      rcases hmem with h | h
      · exact absurd h.symm hk
      · exact h

theorem lookup_mark_read_other :
    ∀ (l : List (String × Bool)) (name other : String), other ≠ name →
      List.lookup other
        (l.map fun p => if p.1 = name then (p.1, true) else p) =
        List.lookup other l := by
  intro l name other hne
  induction l with
  | nil => simp
  | cons kv rest ih =>
    obtain ⟨k, v⟩ := kv
    rw [List.map_cons]
    by_cases hk : k = name
    · subst hk
      have hbeq : (other == k) = false := beq_false_of_ne hne
      rw [if_pos (show (k, v).1 = k from rfl)]
      rw [List.lookup_cons, List.lookup_cons, hbeq]
      exact ih
    · rw [if_neg (show ¬ (k, v).1 = name from hk)]
      rw [List.lookup_cons, List.lookup_cons]
      by_cases hb : (other == k) = true
      · rw [hb]
      · rw [Bool.not_eq_true] at hb
        rw [hb]
        exact ih

/-- C8: in a read session, every member starts unread; a `read(name)` of a
member present in the archive marks exactly that member read; and
`list_unread_files` fails precisely when strict mode is on and some member is
still unread (with strict mode off it always succeeds, reporting the unread
members only as warnings). -/
theorem umb_reader_read_tracking :
    (∀ (fb : List (String × List Nat)) (strict : Bool) (p : String × Bool),
      p ∈ (UmbReader_init fb strict).filename_read → p.2 = false) ∧
    (∀ (st : UmbReaderState) (name : String) (required : Bool),
      name ∈ st.filenames →
      st.filename_read.map Prod.fst = st.filenames →
      (List.lookup name
          ((UmbReader_read st name required).2.filename_read) = some true ∧
        ∀ other : String, other ≠ name →
          List.lookup other
            ((UmbReader_read st name required).2.filename_read) =
            List.lookup other st.filename_read)) ∧
    (∀ st : UmbReaderState,
      (list_unread_files st).2 = .ok () ↔
        (st.strict_mode = false ∨ ∀ p ∈ st.filename_read, p.2 = true)) := by
  refine ⟨?_, ?_, ?_⟩
  · intro fb strict p hp
    simp only [UmbReader_init, List.mem_map] at hp
    obtain ⟨f, -, hf⟩ := hp
    rw [← hf]
  · intro st name required hmem hkeys
    simp only [UmbReader_read, if_pos hmem]
    constructor
    · apply lookup_mark_read_self
      rw [hkeys]
      exact hmem
    · intro other hne
      exact lookup_mark_read_other st.filename_read name other hne
  · intro st
    simp only [list_unread_files]
    by_cases hs : st.strict_mode = true
    · by_cases hu :
        ((st.filename_read.filter (fun p => ¬ p.2)).map Prod.fst).length > 0
      · rw [if_pos ⟨hs, hu⟩]
        simp only [List.length_map, List.length_pos, ne_eq,
          List.filter_eq_nil_iff] at hu
        push_neg at hu
        obtain ⟨p, hp, hfalse⟩ := hu
        constructor
        · intro h
          exact Except.noConfusion h
        · rintro (h | h)
          · rw [hs] at h
            exact Bool.noConfusion h
          · have := h p hp
            simp only [decide_eq_true_eq, Bool.not_eq_true] at hfalse ⊢
            rw [this] at hfalse
            simp at hfalse
      · rw [if_neg (fun hc => hu hc.2)]
        simp only [List.length_map, gt_iff_lt, List.length_pos, ne_eq,
          not_not, List.filter_eq_nil_iff] at hu
        constructor
        · intro _
          right
          intro p hp
          have := hu p hp
          simp only [decide_eq_true_eq, Bool.not_eq_true] at this
          simpa using this
        · intro _
          rfl
    · rw [if_neg (fun hc => hs hc.1)]
      rw [Bool.not_eq_true] at hs
      constructor
      · intro _
        left
        exact hs
      · intro _
        rfl

/-- Witness for `umb_reader_read_tracking`: in the archive
`{index.json ↦ []}`, reading `index.json` marks it read. -/
theorem umb_reader_read_tracking_witness :
    List.lookup "index.json"
      ((UmbReader_read (UmbReader_init [("index.json", [])] false)
          "index.json" true).2.filename_read) = some true :=
  (umb_reader_read_tracking.2.1 (UmbReader_init [("index.json", [])] false)
    "index.json" true (by decide) (by decide)).1

theorem runSections_error_iff :
    ∀ (l : List SectionEncoder) (fb : List (String × List Nat)),
      (∃ e, runSections fb l = .error e) ↔
        ∃ s ∈ l, ∃ e, s = .error e := by
  intro l
  induction l with
  | nil =>
    intro fb
    simp [runSections]
  | cons sec rest ih =>
    intro fb
    match sec with
    | .error e =>
      simp only [runSections]
      constructor
      · intro _
        exact ⟨.error e, List.mem_cons_self _ _, e, rfl⟩
      · intro _
        exact ⟨e, rfl⟩
    | .ok entries =>
      simp only [runSections]
      rw [ih]
      constructor
      · rintro ⟨s, hs, e, he⟩
        exact ⟨s, List.mem_cons_of_mem _ hs, e, he⟩
      · rintro ⟨s, hs, e, he⟩
        rcases List.mem_cons.mp hs with h | h
        · rw [h] at he
          exact Except.noConfusion he
        · exact ⟨s, h, e, he⟩

/-- C9: `write_umb` performs no partial persistence — the section encoders
only accumulate named byte entries in the in-memory map, and durable storage
receives exactly one write, issued after all sections have been added; if any
section encoder raises, the storage trace is left exactly as it was (no
archive file is created or modified). -/
theorem write_umb_no_partial_persistence (sections : List SectionEncoder)
    (storage : Storage) :
    ((∃ s ∈ sections, ∃ e, s = .error e) →
      (write_umb sections storage).1 = storage) ∧
    ((∀ s ∈ sections, ∀ e, s ≠ .error e) →
      ∃ fb, (write_umb sections storage).1.writes =
        storage.writes ++ [fb] ∧ runSections [] sections = .ok fb) := by
  constructor
  · intro herr
    obtain ⟨e, he⟩ := (runSections_error_iff sections []).mpr herr
    simp only [write_umb, he]
  · intro hok
    have hnoerr : ¬ ∃ e, runSections [] sections = .error e := by
      rw [runSections_error_iff]
      rintro ⟨s, hs, e, he⟩
      exact hok s hs e he
    match hres : runSections [] sections with
    | .error e => exact absurd ⟨e, hres⟩ hnoerr
    | .ok fb =>
      refine ⟨fb, ?_, rfl⟩
      simp only [write_umb, hres, TarWriter_write]

/-- Witness for `write_umb_no_partial_persistence`: with a failing second
section, storage keeps its original (empty) trace. -/
theorem write_umb_no_partial_persistence_witness :
    (write_umb [.ok [("state-is-initial.bin", [1])], .error "boom"]
        ⟨[]⟩).1 = ⟨[]⟩ :=
  (write_umb_no_partial_persistence
      [.ok [("state-is-initial.bin", [1])], .error "boom"] ⟨[]⟩).1
    ⟨.error "boom", by simp, "boom", rfl⟩

end Umbi
